import Mathlib

/-!
A shallow embedding of `traces.go` from the cassandra-trace-reporting
repository, together with theorems settling the specification claims.

Go machine integers are modelled as `Int`; the Go expression `a / b` on
`int` truncates toward zero, which is `Int.tdiv`.  Where the 64-bit
wrap-around of Go's `int` is itself at issue, it is modelled explicitly
by `wrap64` and `queryStats.update64`.  Go strings handled at
the character level (regex scanning, replacement, trimming) are modelled
as `List Char`; strings used only as map keys are Lean `String`s.
-/

/-- Embeds the Go struct `queryStats` (traces.go:74-76):
`min, max, cumulative, count int`. -/
structure queryStats where
  min : Int
  max : Int
  cumulative : Int
  count : Int
deriving DecidableEq, Repr

/-- Embeds `func (q *queryStats) update(duration int)` (traces.go:78-87):
`cumulative += duration; count += 1; if duration < min { min = duration };
if duration > max { max = duration }`.  The additions are taken over
unbounded integers here; `queryStats.update64` below makes the 64-bit
wrap-around of Go's `int` explicit where overflow itself is at issue. -/
def queryStats.update (q : queryStats) (duration : Int) : queryStats :=
  { min := if duration < q.min then duration else q.min
    max := if duration > q.max then duration else q.max
    cumulative := q.cumulative + duration
    count := q.count + 1 }

/-- Embeds `func (q *queryStats) avg() int` (traces.go:89-91):
`return q.cumulative / q.count` — Go integer division truncates toward
zero, hence `Int.tdiv`. -/
def queryStats.avg (q : queryStats) : Int :=
  Int.tdiv q.cumulative q.count

/-- Embeds the literal `&queryStats{duration, duration, duration, 1}`
used for a first occurrence (traces.go:247). -/
def newQueryStats (duration : Int) : queryStats :=
  { min := duration, max := duration, cumulative := duration, count := 1 }

/-- Embeds one iteration of the stats scan loop (traces.go:245-252): the
Go map `queries` is modelled as an association list; an existing key is
updated in place, a missing key is inserted with `newQueryStats`. -/
def updateAssoc : List (String × queryStats) → String → Int → List (String × queryStats)
  | [], q, d => [(q, newQueryStats d)]
  | (k, s) :: rest, q, d =>
    if k = q then (k, s.update d) :: rest else (k, s) :: updateAssoc rest q d

/-- Embeds the full stats scan (traces.go:244-252): rows are
`(parameters["query"], duration)` pairs folded into the map. -/
def aggregate (rows : List (String × Int)) : List (String × queryStats) :=
  rows.foldl (fun m r => updateAssoc m r.1 r.2) []

/-- Map lookup `queries[k]` on the association-list model. -/
def assocFind : List (String × queryStats) → String → Option queryStats
  | [], _ => none
  | (k, s) :: rest, q => if k = q then some s else assocFind rest q

/-- Embeds the key collection loop `for k := range queries` (traces.go:258-262). -/
def statsKeys (m : List (String × queryStats)) : List String :=
  m.map Prod.fst

/-- The comparator value `queries[k].avg()` used by the sort (traces.go:266);
total function with a default for absent keys (never hit by the code). -/
def avgKey (m : List (String × queryStats)) (k : String) : Int :=
  match assocFind m k with
  | some s => s.avg
  | none => 0

/-- Embeds the key sort (traces.go:265-267): `sort.Slice(keys, ...)` with
less-function `queries[keys[i]].avg() > queries[keys[j]].avg()`, i.e. the
keys end up ordered by descending average.  `sort.Slice` is unstable, so
any permutation sorted w.r.t. the comparator is a faithful outcome; we fix
insertion sort as the model. -/
def sortKeys (m : List (String × queryStats)) : List String :=
  List.insertionSort (fun a b => avgKey m b ≤ avgKey m a) (statsKeys m)

/-- Embeds the Go struct `Session` (traces.go:39-45); `gocql.UUID` and
`time.Time` are opaque to every claim, modelled as `Nat` tags. -/
structure Session where
  id : Nat
  command : String
  duration : Int
  parameters : List (String × String)
  startedAt : Nat
deriving DecidableEq, Repr

/-- Go map indexing `m["query"]` on the parameters map; a missing key
yields the zero value `""`. -/
def paramLookup : List (String × String) → String → String
  | [], _ => ""
  | (k, v) :: rest, q => if k = q then v else paramLookup rest q

/-- Embeds the sessions command (traces.go:151-176): count every scanned
row, retain rows with `duration >= *minDuration`, sort retained rows by
duration descending (`sort.Slice` with `Duration[i] > Duration[j]`;
unstable, modelled by insertion sort), and report
`(sorted rows, len(sessions), count)`. -/
def sessionsReport (rows : List Session) (minDuration : Int) :
    List Session × Nat × Nat :=
  let retained := rows.filter fun s => decide (minDuration ≤ s.duration)
  (List.insertionSort (fun a b => b.duration ≤ a.duration) retained,
   retained.length, rows.length)

/-! ### Per-key characterization of the aggregation -/

/-- The durations of the rows carrying a given query key, in row order. -/
def durationsOf (q : String) (rows : List (String × Int)) : List Int :=
  (rows.filter fun r => decide (r.1 = q)).map Prod.snd

/-- One key's view of a scan step: a first duration creates the stats via
`newQueryStats`, later durations pass through `queryStats.update`. -/
def stepStat (o : Option queryStats) (d : Int) : Option queryStats :=
  match o with
  | none => some (newQueryStats d)
  | some s => some (s.update d)

/-- The per-key fold the spec describes: first row initializes, each
subsequent row updates. -/
def foldStats (ds : List Int) : Option queryStats :=
  ds.foldl stepStat none

theorem assocFind_updateAssoc_same (m : List (String × queryStats)) (q : String) (d : Int) :
    assocFind (updateAssoc m q d) q = stepStat (assocFind m q) d := by
  induction m with
  | nil => simp [updateAssoc, assocFind, stepStat]
  | cons p rest ih =>
    obtain ⟨k, s⟩ := p
    by_cases h : k = q
    · simp [updateAssoc, assocFind, h, stepStat]
    · simp [updateAssoc, assocFind, h, ih]

theorem assocFind_updateAssoc_other (m : List (String × queryStats)) (k q : String) (d : Int)
    (h : k ≠ q) : assocFind (updateAssoc m k d) q = assocFind m q := by
  induction m with
  | nil => simp [updateAssoc, assocFind, h]
  | cons p rest ih =>
    obtain ⟨k2, s⟩ := p
    by_cases h2 : k2 = k
    · subst h2
      simp [updateAssoc, assocFind, h]
    · by_cases h3 : k2 = q
      · simp [updateAssoc, assocFind, h2, h3, Ne.symm h]
      · simp [updateAssoc, assocFind, h2, h3, ih]

theorem assocFind_foldl (rows : List (String × Int)) (m : List (String × queryStats))
    (q : String) :
    assocFind (rows.foldl (fun m r => updateAssoc m r.1 r.2) m) q
      = (durationsOf q rows).foldl stepStat (assocFind m q) := by
  induction rows generalizing m with
  | nil => simp [durationsOf]
  | cons r rest ih =>
    obtain ⟨k, d⟩ := r
    simp only [List.foldl_cons]
    rw [ih]
    by_cases h : k = q
    · rw [h, assocFind_updateAssoc_same]
      have hd : durationsOf q ((q, d) :: rest) = d :: durationsOf q rest := by
        simp [durationsOf]
      rw [hd, List.foldl_cons]
    · rw [assocFind_updateAssoc_other _ _ _ _ h]
      have hd : durationsOf q ((k, d) :: rest) = durationsOf q rest := by
        simp [durationsOf, h]
      rw [hd]

/-- The map entry for each key equals the spec's per-key fold of that
key's durations. -/
theorem assocFind_aggregate (rows : List (String × Int)) (q : String) :
    assocFind (aggregate rows) q = foldStats (durationsOf q rows) := by
  have h := assocFind_foldl rows [] q
  simpa [aggregate, foldStats, assocFind] using h

theorem queryStats.update_comm (s : queryStats) (d1 d2 : Int) :
    (s.update d1).update d2 = (s.update d2).update d1 := by
  simp only [queryStats.update, queryStats.mk.injEq]
  refine ⟨?_, ?_, by omega, trivial⟩
  · split_ifs <;> omega
  · split_ifs <;> omega

theorem update_newQueryStats_comm (d1 d2 : Int) :
    (newQueryStats d1).update d2 = (newQueryStats d2).update d1 := by
  simp only [queryStats.update, newQueryStats, queryStats.mk.injEq]
  refine ⟨?_, ?_, by omega, trivial⟩
  · split_ifs <;> omega
  · split_ifs <;> omega

theorem stepStat_right_comm (o : Option queryStats) (d1 d2 : Int) :
    stepStat (stepStat o d1) d2 = stepStat (stepStat o d2) d1 := by
  cases o with
  | none => simp [stepStat, update_newQueryStats_comm]
  | some s => simp [stepStat, queryStats.update_comm]

theorem foldStats_perm {l1 l2 : List Int} (h : List.Perm l1 l2) :
    foldStats l1 = foldStats l2 := by
  haveI : RightCommutative stepStat := ⟨fun o d1 d2 => stepStat_right_comm o d1 d2⟩
  exact h.foldl_eq none

theorem durationsOf_perm (q : String) {l1 l2 : List (String × Int)} (h : l1.Perm l2) :
    (durationsOf q l1).Perm (durationsOf q l2) :=
  (h.filter _).map _

theorem foldl_stepStat_some (ds : List Int) (s : queryStats) :
    ds.foldl stepStat (some s) = some (ds.foldl queryStats.update s) := by
  induction ds generalizing s with
  | nil => rfl
  | cons d ds ih => simp [stepStat, ih, List.foldl_cons]

theorem foldStats_cons (d : Int) (ds : List Int) :
    foldStats (d :: ds) = some (ds.foldl queryStats.update (newQueryStats d)) := by
  simp [foldStats, stepStat, foldl_stepStat_some, List.foldl_cons]

theorem foldStats_isSome_iff (ds : List Int) :
    (foldStats ds).isSome = true ↔ ds ≠ [] := by
  cases ds with
  | nil => simp [foldStats]
  | cons d ds => simp [foldStats_cons]

theorem assocFind_isSome_iff_mem (m : List (String × queryStats)) (q : String) :
    (assocFind m q).isSome = true ↔ q ∈ statsKeys m := by
  induction m with
  | nil => simp [assocFind, statsKeys]
  | cons p rest ih =>
    obtain ⟨k, s⟩ := p
    by_cases h : k = q
    · simp [assocFind, statsKeys, h]
    · simp [assocFind, statsKeys, h, Ne.symm h, ih]

theorem statsKeys_nil : statsKeys [] = [] := rfl

theorem statsKeys_cons (p : String × queryStats) (m : List (String × queryStats)) :
    statsKeys (p :: m) = p.1 :: statsKeys m := rfl

theorem mem_statsKeys_updateAssoc (m : List (String × queryStats)) (k q : String) (d : Int) :
    q ∈ statsKeys (updateAssoc m k d) ↔ q ∈ statsKeys m ∨ q = k := by
  induction m with
  | nil => simp [updateAssoc, statsKeys]
  | cons p rest ih =>
    obtain ⟨k2, s⟩ := p
    by_cases h : k2 = k
    · subst h
      rw [updateAssoc, if_pos rfl, statsKeys_cons, statsKeys_cons]
      constructor
      · intro hm
        exact Or.inl hm
      · rintro (hm | hm)
        · exact hm
        · subst hm
          exact List.mem_cons_self _ _
    · rw [updateAssoc, if_neg h, statsKeys_cons, statsKeys_cons]
      rw [List.mem_cons, List.mem_cons, ih]
      tauto

theorem statsKeys_updateAssoc_nodup (m : List (String × queryStats)) (k : String) (d : Int)
    (hm : (statsKeys m).Nodup) : (statsKeys (updateAssoc m k d)).Nodup := by
  induction m with
  | nil => simp [updateAssoc, statsKeys]
  | cons p rest ih =>
    obtain ⟨k2, s⟩ := p
    rw [statsKeys_cons, List.nodup_cons] at hm
    by_cases h : k2 = k
    · subst h
      rw [updateAssoc, if_pos rfl, statsKeys_cons, List.nodup_cons]
      exact hm
    · rw [updateAssoc, if_neg h, statsKeys_cons, List.nodup_cons]
      refine ⟨?_, ih hm.2⟩
      rw [mem_statsKeys_updateAssoc]
      rintro (hmem | hmem)
      · exact hm.1 hmem
      · exact h hmem

theorem statsKeys_nodup_foldl (rows : List (String × Int)) (m : List (String × queryStats))
    (hm : (statsKeys m).Nodup) :
    (statsKeys (rows.foldl (fun m r => updateAssoc m r.1 r.2) m)).Nodup := by
  induction rows generalizing m with
  | nil => exact hm
  | cons r rest ih =>
    exact ih (updateAssoc m r.1 r.2) (statsKeys_updateAssoc_nodup m r.1 r.2 hm)

theorem statsKeys_aggregate_nodup (rows : List (String × Int)) :
    (statsKeys (aggregate rows)).Nodup :=
  statsKeys_nodup_foldl rows [] (by simp [statsKeys])

theorem durationsOf_ne_nil_iff (q : String) (rows : List (String × Int)) :
    durationsOf q rows ≠ [] ↔ q ∈ rows.map Prod.fst := by
  induction rows with
  | nil => simp [durationsOf]
  | cons r rest ih =>
    by_cases h : r.1 = q
    · simp [durationsOf, List.filter_cons, h]
    · simp [durationsOf, List.filter_cons, h, Ne.symm h, ih]

theorem mem_statsKeys_aggregate (rows : List (String × Int)) (q : String) :
    q ∈ statsKeys (aggregate rows) ↔ q ∈ rows.map Prod.fst := by
  rw [← assocFind_isSome_iff_mem, assocFind_aggregate, foldStats_isSome_iff,
    durationsOf_ne_nil_iff]

theorem sortKeys_sorted (m : List (String × queryStats)) :
    List.Sorted (fun a b => avgKey m b ≤ avgKey m a) (sortKeys m) := by
  haveI : IsTotal String (fun a b => avgKey m b ≤ avgKey m a) := ⟨fun a b => le_total _ _⟩
  haveI : IsTrans String (fun a b => avgKey m b ≤ avgKey m a) :=
    ⟨fun a b c h1 h2 => le_trans h2 h1⟩
  exact List.sorted_insertionSort _ _

theorem sortKeys_perm (m : List (String × queryStats)) :
    (sortKeys m).Perm (statsKeys m) :=
  List.perm_insertionSort _ _

/-! ### The stats-map invariant -/

/-- The invariant of claim C10 on every stored `queryStats` value. -/
def statsInv (s : queryStats) : Prop :=
  1 ≤ s.count ∧ s.min ≤ s.max ∧ s.min * s.count ≤ s.cumulative
    ∧ s.cumulative ≤ s.max * s.count

theorem statsInv_new (d : Int) : statsInv (newQueryStats d) := by
  simp [statsInv, newQueryStats]

theorem statsInv_update (s : queryStats) (d : Int) (h : statsInv s) :
    statsInv (s.update d) := by
  obtain ⟨h1, h2, h3, h4⟩ := h
  have hc0 : (0 : Int) ≤ s.count := by omega
  refine ⟨by simp [queryStats.update]; omega, ?_, ?_, ?_⟩
  · simp only [queryStats.update]
    split_ifs <;> omega
  · simp only [queryStats.update]
    split_ifs with hd
    · have hmono : d * s.count ≤ s.min * s.count :=
        mul_le_mul_of_nonneg_right (le_of_lt hd) hc0
      rw [mul_add, mul_one]
      linarith
    · rw [mul_add, mul_one]
      omega
  · simp only [queryStats.update]
    split_ifs with hd
    · have hmono : s.max * s.count ≤ d * s.count :=
        mul_le_mul_of_nonneg_right (le_of_lt hd) hc0
      rw [mul_add, mul_one]
      linarith
    · rw [mul_add, mul_one]
      omega

theorem statsInv_foldl (ds : List Int) (s : queryStats) (h : statsInv s) :
    statsInv (ds.foldl queryStats.update s) := by
  induction ds generalizing s with
  | nil => exact h
  | cons d ds ih => exact ih _ (statsInv_update s d h)

theorem statsInv_foldStats (ds : List Int) (s : queryStats)
    (h : foldStats ds = some s) : statsInv s := by
  cases ds with
  | nil => simp [foldStats] at h
  | cons d ds =>
    rw [foldStats_cons] at h
    cases h
    exact statsInv_foldl ds _ (statsInv_new d)

/-! ### Bounds on Go (truncating) integer division -/

theorem le_ediv_of_mul_le {a b n : Int} (hn : 0 < n) (h : a * n ≤ b) : a ≤ b / n :=
  (Int.le_ediv_iff_mul_le hn).mpr h

theorem ediv_le_of_le_mul {a b n : Int} (hn : 0 < n) (h : b ≤ a * n) : b / n ≤ a := by
  have h2 : b / n ≤ (a * n) / n := Int.ediv_le_ediv hn h
  rwa [Int.mul_ediv_cancel a (by omega : n ≠ 0)] at h2

theorem le_tdiv_of_mul_le {a b n : Int} (hn : 0 < n) (h : a * n ≤ b) :
    a ≤ Int.tdiv b n := by
  rcases le_or_lt 0 b with hb | hb
  · rw [Int.tdiv_eq_ediv hb (le_of_lt hn)]
    exact le_ediv_of_mul_le hn h
  · have hb2 : (0 : Int) ≤ -b := by omega
    have hneg : Int.tdiv b n = -(Int.tdiv (-b) n) := by
      rw [← Int.neg_tdiv, neg_neg]
    rw [hneg, Int.tdiv_eq_ediv hb2 (le_of_lt hn)]
    have h3 : (-b) / n ≤ -a := by
      refine ediv_le_of_le_mul hn ?_
      rw [neg_mul]
      linarith
    linarith

theorem tdiv_le_of_le_mul {a b n : Int} (hn : 0 < n) (h : b ≤ a * n) :
    Int.tdiv b n ≤ a := by
  rcases le_or_lt 0 b with hb | hb
  · rw [Int.tdiv_eq_ediv hb (le_of_lt hn)]
    exact ediv_le_of_le_mul hn h
  · have hb2 : (0 : Int) ≤ -b := by omega
    have hneg : Int.tdiv b n = -(Int.tdiv (-b) n) := by
      rw [← Int.neg_tdiv, neg_neg]
    rw [hneg, Int.tdiv_eq_ediv hb2 (le_of_lt hn)]
    have h3 : -a ≤ (-b) / n := by
      refine le_ediv_of_mul_le hn ?_
      rw [neg_mul]
      linarith
    linarith

theorem statsInv_avg_bounds (s : queryStats) (h : statsInv s) :
    s.min ≤ s.avg ∧ s.avg ≤ s.max := by
  obtain ⟨h1, _, h3, h4⟩ := h
  have hc : (0 : Int) < s.count := by omega
  exact ⟨le_tdiv_of_mul_le hc h3, tdiv_le_of_le_mul hc h4⟩

/-! ### Go 64-bit wrap-around model of the stats arithmetic -/

/-- Two's-complement wrap-around of Go's 64-bit `int`: normalizes an
unbounded integer into the interval [-2^63, 2^63). -/
def wrap64 (x : Int) : Int :=
  (x + 2 ^ 63) % 2 ^ 64 - 2 ^ 63

/-- The representable range of Go's 64-bit `int`. -/
def inRange64 (x : Int) : Prop :=
  -(2 ^ 63) ≤ x ∧ x < 2 ^ 63

instance : DecidablePred inRange64 := fun x => by
  unfold inRange64
  infer_instance

theorem wrap64_eq_self {x : Int} (h : inRange64 x) : wrap64 x = x := by
  obtain ⟨h1, h2⟩ := h
  unfold wrap64
  rw [Int.emod_eq_of_lt (by omega) (by omega)]
  omega

/-- Embeds `func (q *queryStats) update(duration int)` (traces.go:78-87)
with Go's machine arithmetic made explicit: the additions
`cumulative += duration` and `count += 1` wrap around at 64 bits; the
min/max branches are plain assignments and cannot overflow. -/
def queryStats.update64 (q : queryStats) (duration : Int) : queryStats :=
  { min := if duration < q.min then duration else q.min
    max := if duration > q.max then duration else q.max
    cumulative := wrap64 (q.cumulative + duration)
    count := wrap64 (q.count + 1) }

/-- One stats-scan iteration (traces.go:245-252) under wrapping arithmetic. -/
def updateAssoc64 : List (String × queryStats) → String → Int → List (String × queryStats)
  | [], q, d => [(q, newQueryStats d)]
  | (k, s) :: rest, q, d =>
    if k = q then (k, s.update64 d) :: rest else (k, s) :: updateAssoc64 rest q d

/-- The full stats scan (traces.go:244-252) under wrapping arithmetic. -/
def aggregate64 (rows : List (String × Int)) : List (String × queryStats) :=
  rows.foldl (fun m r => updateAssoc64 m r.1 r.2) []

/-- Per-key scan step under wrapping arithmetic. -/
def stepStat64 (o : Option queryStats) (d : Int) : Option queryStats :=
  match o with
  | none => some (newQueryStats d)
  | some s => some (s.update64 d)

/-- Per-key fold under wrapping arithmetic. -/
def foldStats64 (ds : List Int) : Option queryStats :=
  ds.foldl stepStat64 none

theorem assocFind_updateAssoc64_same (m : List (String × queryStats)) (q : String)
    (d : Int) : assocFind (updateAssoc64 m q d) q = stepStat64 (assocFind m q) d := by
  induction m with
  | nil => simp [updateAssoc64, assocFind, stepStat64]
  | cons p rest ih =>
    obtain ⟨k, s⟩ := p
    by_cases h : k = q
    · simp [updateAssoc64, assocFind, h, stepStat64]
    · simp [updateAssoc64, assocFind, h, ih]

theorem assocFind_updateAssoc64_other (m : List (String × queryStats)) (k q : String)
    (d : Int) (h : k ≠ q) : assocFind (updateAssoc64 m k d) q = assocFind m q := by
  induction m with
  | nil => simp [updateAssoc64, assocFind, h]
  | cons p rest ih =>
    obtain ⟨k2, s⟩ := p
    by_cases h2 : k2 = k
    · subst h2
      simp [updateAssoc64, assocFind, h]
    · by_cases h3 : k2 = q
      · simp [updateAssoc64, assocFind, h2, h3, Ne.symm h]
      · simp [updateAssoc64, assocFind, h2, h3, ih]

theorem assocFind_foldl64 (rows : List (String × Int)) (m : List (String × queryStats))
    (q : String) :
    assocFind (rows.foldl (fun m r => updateAssoc64 m r.1 r.2) m) q
      = (durationsOf q rows).foldl stepStat64 (assocFind m q) := by
  induction rows generalizing m with
  | nil => simp [durationsOf]
  | cons r rest ih =>
    obtain ⟨k, d⟩ := r
    simp only [List.foldl_cons]
    rw [ih]
    by_cases h : k = q
    · rw [h, assocFind_updateAssoc64_same]
      have hd : durationsOf q ((q, d) :: rest) = d :: durationsOf q rest := by
        simp [durationsOf]
      rw [hd, List.foldl_cons]
    · rw [assocFind_updateAssoc64_other _ _ _ _ h]
      have hd : durationsOf q ((k, d) :: rest) = durationsOf q rest := by
        simp [durationsOf, h]
      rw [hd]

theorem assocFind_aggregate64 (rows : List (String × Int)) (q : String) :
    assocFind (aggregate64 rows) q = foldStats64 (durationsOf q rows) := by
  have h := assocFind_foldl64 rows [] q
  simpa [aggregate64, foldStats64, assocFind] using h

theorem foldl_stepStat64_some (ds : List Int) (s : queryStats) :
    ds.foldl stepStat64 (some s) = some (ds.foldl queryStats.update64 s) := by
  induction ds generalizing s with
  | nil => rfl
  | cons d ds ih => simp [stepStat64, ih, List.foldl_cons]

theorem foldStats64_cons (d : Int) (ds : List Int) :
    foldStats64 (d :: ds)
      = some (ds.foldl queryStats.update64 (newQueryStats d)) := by
  simp [foldStats64, stepStat64, foldl_stepStat64_some, List.foldl_cons]

/-- As long as every intermediate cumulative sum and every intermediate
count stays inside the 64-bit range, the wrapping fold agrees with the
unbounded one. -/
theorem foldl_update64_eq_update (ds : List Int) (s : queryStats)
    (hc : ∀ n, n ≤ ds.length → inRange64 (s.cumulative + (ds.take n).sum))
    (hk0 : 0 ≤ s.count)
    (hk : s.count + (ds.length : Int) < 2 ^ 63) :
    ds.foldl queryStats.update64 s = ds.foldl queryStats.update s := by
  induction ds generalizing s with
  | nil => rfl
  | cons d ds ih =>
    have h1 : inRange64 (s.cumulative + d) := by
      have h := hc 1 (by simp)
      simpa using h
    have h2 : inRange64 (s.count + 1) := by
      unfold inRange64
      push_cast [List.length_cons] at hk
      omega
    have hstep : queryStats.update64 s d = queryStats.update s d := by
      simp only [queryStats.update64, queryStats.update,
        wrap64_eq_self h1, wrap64_eq_self h2]
    rw [List.foldl_cons, List.foldl_cons, hstep]
    apply ih
    · intro n hn
      have h := hc (n + 1) (by simp only [List.length_cons]; omega)
      simp only [List.take_succ_cons, List.sum_cons] at h
      show inRange64 ((queryStats.update s d).cumulative + (ds.take n).sum)
      simp only [queryStats.update]
      have heq : s.cumulative + d + (ds.take n).sum
          = s.cumulative + (d + (ds.take n).sum) := by ring
      rw [heq]
      exact h
    · simp only [queryStats.update]
      omega
    · simp only [queryStats.update]
      push_cast [List.length_cons] at hk
      omega

theorem foldStats64_eq_foldStats (ds : List Int)
    (hsum : ∀ n, n ≤ ds.length → inRange64 ((ds.take n).sum))
    (hlen : (ds.length : Int) < 2 ^ 63) :
    foldStats64 ds = foldStats ds := by
  cases ds with
  | nil => rfl
  | cons d ds =>
    rw [foldStats64_cons, foldStats_cons]
    congr 1
    apply foldl_update64_eq_update
    · intro n hn
      have h := hsum (n + 1) (by simp only [List.length_cons]; omega)
      simp only [List.take_succ_cons, List.sum_cons] at h
      show inRange64 ((newQueryStats d).cumulative + (ds.take n).sum)
      simp only [newQueryStats]
      exact h
    · simp [newQueryStats]
    · simp only [newQueryStats]
      push_cast [List.length_cons] at hlen
      omega

/-! ### The events command: strings, regex scan, replacement -/

/-- A reverse-DNS response as returned by `net.LookupAddr`: `ok` models
`err == nil`, `names` the returned slice. -/
structure LookupResult where
  ok : Bool
  names : List (List Char)

/-- The branch condition at traces.go:213: `err == nil || len(names) > 1`. -/
def bestEffortCond (r : LookupResult) : Bool :=
  r.ok || decide (1 < r.names.length)

/-- Prefix test on character lists, used to model the scanning done by
`strings.Replace`. -/
def hasPfx : List Char → List Char → Bool
  | [], _ => true
  | _ :: _, [] => false
  | a :: pat, b :: s => a == b && hasPfx pat s

/-- Embeds `strings.Replace(s, pat, rep, -1)` (traces.go:214): every
non-overlapping occurrence of `pat`, scanning left to right, is replaced
by `rep`.  (`pat` is never empty where the code calls this.)  Written
with explicit fuel so that it evaluates by kernel reduction. -/
def replaceAllF : Nat → List Char → List Char → List Char → List Char
  | 0, s, _, _ => s
  | _ + 1, [], _, _ => []
  | fuel + 1, c :: s, pat, rep =>
    if pat ≠ [] ∧ hasPfx pat (c :: s) = true then
      rep ++ replaceAllF fuel (List.drop (pat.length - 1) s) pat rep
    else
      c :: replaceAllF fuel s pat rep

def replaceAll (s pat rep : List Char) : List Char :=
  replaceAllF s.length s pat rep

/-- `strings.TrimLeft(s, "/")` (traces.go:211): strip all leading slashes. -/
def trimLeftSlashes (s : List Char) : List Char :=
  s.dropWhile (fun c => c == '/')

/-- `strings.TrimRight(s, ".")` (traces.go:207): strip all trailing dots. -/
def trimRightDots (s : List Char) : List Char :=
  (s.reverse.dropWhile (fun c => c == '.')).reverse

/-- One one-to-three digit group followed by a literal dot, as matched by
`[\d]{1,3}\.` inside the pattern at traces.go:187.  Backtracking over the
greedy `{1,3}` succeeds exactly when the maximal digit run at this point
has length 1..3 and is followed by a dot; returns the group and the
remainder after the dot. -/
def parseGroupDot (s : List Char) : Option (List Char × List Char) :=
  let g := s.takeWhile Char.isDigit
  let r := s.dropWhile Char.isDigit
  if 1 ≤ g.length ∧ g.length ≤ 3 ∧ r.take 1 = ['.'] then some (g, r.tail) else none

/-- The final `[\d]{1,3}` group of the pattern: the greedy match takes up
to three leading digits and requires at least one. -/
def parseLastGroup (s : List Char) : Option (List Char) :=
  let g := (s.takeWhile Char.isDigit).take 3
  if 1 ≤ g.length then some g else none

/-- Attempts the pattern of traces.go:187, a space then a slash-prefixed
dotted quad of 1-3 digit groups, anchored at the head of the input;
returns the submatch named `IP` (leading slash included, space excluded). -/
def parseAt : List Char → Option (List Char)
  | c0 :: c1 :: rest =>
    if c0 = ' ' ∧ c1 = '/' then
      match parseGroupDot rest with
      | none => none
      | some (g1, r1) =>
        match parseGroupDot r1 with
        | none => none
        | some (g2, r2) =>
          match parseGroupDot r2 with
          | none => none
          | some (g3, r3) =>
            match parseLastGroup r3 with
            | none => none
            | some g4 => some ('/' :: (g1 ++ '.' :: (g2 ++ '.' :: (g3 ++ '.' :: g4))))
    else none
  | _ => none

/-- `regexp.FindStringSubmatch` for the pattern above, reduced through
`matches`/`mapSubexpNames` (traces.go:116-134) to the one named group:
the leftmost position where the pattern matches wins. -/
def findUnresolved : List Char → Option (List Char)
  | [] => none
  | c :: s =>
    match parseAt (c :: s) with
    | some tok => some tok
    | none => findUnresolved s

/-- Embeds the activity post-processing (traces.go:210-216): find the
first embedded IP token; under `err == nil || len(names) > 1`, replace
every occurrence of the token (`strings.Replace` with n = -1) by the
first resolved name.  The Go access `names[0]` is modelled total as
`headD []`; claim C4 addresses its bounds. -/
def processActivity (resolver : List Char → LookupResult) (activity : List Char) :
    List Char :=
  match findUnresolved activity with
  | none => activity
  | some tok =>
    let r := resolver (trimLeftSlashes tok)
    if bestEffortCond r = true then replaceAll activity tok (r.names.headD []) else activity

/-- Embeds the source-name resolution (traces.go:198-207): on lookup
failure (`err != nil || len(names) < 1`) fall back to the literal IP
string; either way the result then has trailing dots trimmed. -/
def resolveSrcName (r : LookupResult) (ipStr : List Char) : List Char :=
  let srcName := if r.ok = false ∨ r.names.length < 1 then ipStr else r.names.headD []
  trimRightDots srcName

/-- An events-table row (traces.go:190-196): `dateOf(event_id)`,
`activity`, `source`, `source_elapsed`, `thread`; the timestamp is an
opaque tag and the source IP is carried as its string form
`srcHost.String()`. -/
structure EventRow where
  evId : Nat
  activity : List Char
  src : List Char
  elapsed : Int
  thread : List Char
deriving DecidableEq, Repr

/-- One printed event line (traces.go:220) less the line number. -/
structure EventOut where
  evId : Nat
  srcName : List Char
  elapsed : Int
  thread : List Char
  activity : List Char
deriving DecidableEq, Repr

/-- The per-row rendering inside the scan loop (traces.go:197-216). -/
def renderEvent (resolver : List Char → LookupResult) (e : EventRow) : EventOut :=
  { evId := e.evId
    srcName := resolveSrcName (resolver e.src) e.src
    elapsed := e.elapsed
    thread := e.thread
    activity := processActivity resolver e.activity }

/-- The filter-and-number loop (traces.go:188 and 218-222): `lineNo`
starts at 1 and advances only on emitted lines; a line is emitted when
`len(*onlySource) < 1 || *onlySource == srcName`. -/
def eventsGo (resolver : List Char → LookupResult) (onlySource : List Char) :
    Nat → List EventRow → List (Nat × EventOut)
  | _, [] => []
  | n, e :: es =>
    let out := renderEvent resolver e
    if onlySource.length < 1 ∨ onlySource = out.srcName then
      (n, out) :: eventsGo resolver onlySource (n + 1) es
    else
      eventsGo resolver onlySource n es

/-- Embeds the events command body over a list of scanned rows. -/
def eventsReport (resolver : List Char → LookupResult) (onlySource : List Char)
    (rows : List EventRow) : List (Nat × EventOut) :=
  eventsGo resolver onlySource 1 rows

/-! ### Properties of the replacement scan -/

theorem hasPfx_iff (pat s : List Char) : hasPfx pat s = true ↔ ∃ t, s = pat ++ t := by
  induction pat generalizing s with
  | nil =>
    simp only [hasPfx, List.nil_append, true_iff]
    exact ⟨s, rfl⟩
  | cons a pat ih =>
    cases s with
    | nil =>
      constructor
      · intro h
        simp [hasPfx] at h
      · rintro ⟨t, ht⟩
        simp at ht
    | cons b s =>
      simp only [hasPfx, Bool.and_eq_true, beq_iff_eq]
      constructor
      · rintro ⟨rfl, h⟩
        obtain ⟨t, rfl⟩ := (ih s).mp h
        exact ⟨t, rfl⟩
      · rintro ⟨t, ht⟩
        rw [List.cons_append] at ht
        injection ht with hb hs
        exact ⟨hb.symm, (ih s).mpr ⟨t, hs⟩⟩

theorem hasPfx_append (pat t : List Char) : hasPfx pat (pat ++ t) = true :=
  (hasPfx_iff pat (pat ++ t)).mpr ⟨t, rfl⟩

theorem replaceAllF_fuel (f1 : Nat) (f2 : Nat) (s pat rep : List Char)
    (h1 : s.length ≤ f1) (h2 : s.length ≤ f2) :
    replaceAllF f1 s pat rep = replaceAllF f2 s pat rep := by
  induction f1 generalizing f2 s with
  | zero =>
    have hs : s = [] := by
      cases s with
      | nil => rfl
      | cons c s => simp at h1
    subst hs
    cases f2 <;> rfl
  | succ f1 ih =>
    cases s with
    | nil => cases f2 <;> rfl
    | cons c s =>
      cases f2 with
      | zero => simp at h2
      | succ f2 =>
        simp only [List.length_cons, Nat.add_le_add_iff_right] at h1 h2
        simp only [replaceAllF]
        by_cases hc : pat ≠ [] ∧ hasPfx pat (c :: s) = true
        · rw [if_pos hc, if_pos hc]
          have hlen : (List.drop (pat.length - 1) s).length ≤ s.length := by
            rw [List.length_drop]
            omega
          rw [ih f2 (List.drop (pat.length - 1) s) (by omega) (by omega)]
        · rw [if_neg hc, if_neg hc]
          rw [ih f2 s h1 h2]

theorem replaceAll_nil (pat rep : List Char) : replaceAll [] pat rep = [] := rfl

theorem replaceAll_cons_pos (c : Char) (s pat rep : List Char) (hne : pat ≠ [])
    (hp : hasPfx pat (c :: s) = true) :
    replaceAll (c :: s) pat rep
      = rep ++ replaceAll (List.drop (pat.length - 1) s) pat rep := by
  show replaceAllF (s.length + 1) (c :: s) pat rep = _
  rw [replaceAllF, if_pos ⟨hne, hp⟩]
  congr 1
  apply replaceAllF_fuel
  · rw [List.length_drop]
    omega
  · exact le_refl _

theorem replaceAll_cons_neg (c : Char) (s pat rep : List Char)
    (h : ¬(pat ≠ [] ∧ hasPfx pat (c :: s) = true)) :
    replaceAll (c :: s) pat rep = c :: replaceAll s pat rep := by
  show replaceAllF (s.length + 1) (c :: s) pat rep = _
  rw [replaceAllF, if_neg h]
  rfl

/-- The characterization of global replacement: if no occurrence of `pat`
begins strictly inside the prefix `a`, then the occurrence of `pat` right
after `a` is replaced and the scan continues over the remainder `b`. -/
theorem replaceAll_append_occ (a pat b rep : List Char) (hpat : pat ≠ [])
    (hocc : ∀ a1 a2, a = a1 ++ a2 → a2 ≠ [] → ∀ t, a2 ++ (pat ++ b) ≠ pat ++ t) :
    replaceAll (a ++ pat ++ b) pat rep = a ++ rep ++ replaceAll b pat rep := by
  induction a with
  | nil =>
    cases pat with
    | nil => exact absurd rfl hpat
    | cons p0 pt =>
      simp only [List.nil_append, List.cons_append]
      rw [replaceAll_cons_pos p0 (pt ++ b) (p0 :: pt) rep hpat
        (by rw [← List.cons_append]; exact hasPfx_append _ _)]
      rw [List.length_cons, Nat.add_sub_cancel, List.drop_left]
  | cons c a ih =>
    have hnom : ¬ hasPfx pat (c :: (a ++ pat ++ b)) = true := by
      intro hcontra
      obtain ⟨t, ht⟩ := (hasPfx_iff _ _).mp hcontra
      refine hocc [] (c :: a) rfl (List.cons_ne_nil c a) t ?_
      rw [List.append_assoc] at ht
      exact ht
    have ih2 := ih fun a1 a2 hsplit hne t =>
      hocc (c :: a1) a2 (by rw [hsplit, List.cons_append]) hne t
    have hs : (c :: a) ++ pat ++ b = c :: (a ++ pat ++ b) := by
      simp [List.cons_append]
    rw [hs, replaceAll_cons_neg c (a ++ pat ++ b) pat rep (fun hc => hnom hc.2), ih2]
    simp [List.cons_append]

/-! ### Properties of the IP-extraction pattern -/

/-- One octet group of the pattern: all digits, one to three of them
(`[\d]{1,3}`, no range validation on the value). -/
def digitGroup (g : List Char) : Prop :=
  (∀ c ∈ g, c.isDigit = true) ∧ 1 ≤ g.length ∧ g.length ≤ 3

instance (g : List Char) : Decidable (digitGroup g) := by
  unfold digitGroup
  infer_instance

theorem takeWhile_append_all {p : Char → Bool} (g t : List Char)
    (hg : ∀ c ∈ g, p c = true) :
    (g ++ t).takeWhile p = g ++ t.takeWhile p := by
  induction g with
  | nil => simp
  | cons c g ih =>
    have hc := hg c (List.mem_cons_self c g)
    simp only [List.cons_append, List.takeWhile_cons, hc, if_true]
    rw [ih fun d hd => hg d (List.mem_cons_of_mem c hd)]

theorem dropWhile_append_all {p : Char → Bool} (g t : List Char)
    (hg : ∀ c ∈ g, p c = true) :
    (g ++ t).dropWhile p = t.dropWhile p := by
  induction g with
  | nil => simp
  | cons c g ih =>
    have hc := hg c (List.mem_cons_self c g)
    simp only [List.cons_append, List.dropWhile_cons, hc, if_true]
    exact ih fun d hd => hg d (List.mem_cons_of_mem c hd)

theorem parseGroupDot_sound {s g r : List Char}
    (h : parseGroupDot s = some (g, r)) :
    s = g ++ '.' :: r ∧ digitGroup g := by
  by_cases hcond : 1 ≤ (s.takeWhile Char.isDigit).length
      ∧ (s.takeWhile Char.isDigit).length ≤ 3
      ∧ (s.dropWhile Char.isDigit).take 1 = ['.']
  · simp only [parseGroupDot, if_pos hcond] at h
    obtain ⟨h1, h2, h3⟩ := hcond
    injection h with hp
    have hg : List.takeWhile Char.isDigit s = g := congrArg Prod.fst hp
    have hr : (List.dropWhile Char.isDigit s).tail = r := congrArg Prod.snd hp
    cases hdw : s.dropWhile Char.isDigit with
    | nil => rw [hdw] at h3; simp at h3
    | cons c t =>
      rw [hdw] at h3
      simp only [List.take_succ_cons, List.take_zero] at h3
      injection h3 with hc _
      subst hc
      refine ⟨?_, ?_, ?_, ?_⟩
      · rw [← hg, ← hr, hdw]
        simp only [List.tail_cons]
        conv_lhs => rw [← List.takeWhile_append_dropWhile Char.isDigit s, hdw]
      · intro d hd
        rw [← hg] at hd
        exact List.mem_takeWhile_imp hd
      · rw [← hg]; exact h1
      · rw [← hg]; exact h2
  · simp only [parseGroupDot, if_neg hcond] at h
    exact Option.noConfusion h

theorem parseGroupDot_complete (g t : List Char) (hdig : ∀ c ∈ g, c.isDigit = true)
    (h1 : 1 ≤ g.length) (h3 : g.length ≤ 3) :
    parseGroupDot (g ++ '.' :: t) = some (g, t) := by
  have hdot : ('.' : Char).isDigit = false := by decide
  have htw : (g ++ '.' :: t).takeWhile Char.isDigit = g := by
    rw [takeWhile_append_all g _ hdig, List.takeWhile_cons, hdot]
    simp
  have hdw : (g ++ '.' :: t).dropWhile Char.isDigit = '.' :: t := by
    rw [dropWhile_append_all g _ hdig, List.dropWhile_cons, hdot]
    simp
  simp only [parseGroupDot, htw, hdw]
  rw [if_pos ⟨h1, h3, rfl⟩]
  rfl

theorem parseLastGroup_sound {s g : List Char} (h : parseLastGroup s = some g) :
    (∃ b, s = g ++ b) ∧ digitGroup g := by
  by_cases hcond : 1 ≤ ((s.takeWhile Char.isDigit).take 3).length
  · simp only [parseLastGroup, if_pos hcond] at h
    injection h with hg
    refine ⟨⟨List.drop 3 (s.takeWhile Char.isDigit) ++ s.dropWhile Char.isDigit, ?_⟩,
      ?_, ?_, ?_⟩
    · rw [← hg]
      conv_lhs => rw [← List.takeWhile_append_dropWhile Char.isDigit s]
      conv_lhs => rw [← List.take_append_drop 3 (s.takeWhile Char.isDigit)]
      rw [List.append_assoc]
    · intro d hd
      rw [← hg] at hd
      exact List.mem_takeWhile_imp (List.take_subset 3 _ hd)
    · rw [← hg]; exact hcond
    · rw [← hg, List.length_take]
      exact min_le_left 3 _
  · simp only [parseLastGroup, if_neg hcond] at h
    exact Option.noConfusion h

theorem parseLastGroup_complete (g t : List Char) (hdig : ∀ c ∈ g, c.isDigit = true)
    (h1 : 1 ≤ g.length) :
    ∃ g2, parseLastGroup (g ++ t) = some g2 := by
  simp only [parseLastGroup, takeWhile_append_all g t hdig]
  rw [if_pos ?_]
  · exact ⟨_, rfl⟩
  · rw [List.length_take, List.length_append]
    refine le_min (by omega) (by omega)

theorem parseAt_sound {s tok : List Char} (h : parseAt s = some tok) :
    ∃ g1 g2 g3 g4 b,
      s = ' ' :: '/' :: (g1 ++ '.' :: (g2 ++ '.' :: (g3 ++ '.' :: (g4 ++ b))))
      ∧ digitGroup g1 ∧ digitGroup g2 ∧ digitGroup g3 ∧ digitGroup g4
      ∧ tok = '/' :: (g1 ++ '.' :: (g2 ++ '.' :: (g3 ++ '.' :: g4))) := by
  rcases s with _ | ⟨c0, _ | ⟨c1, rest⟩⟩
  · exact Option.noConfusion h
  · exact Option.noConfusion h
  · simp only [parseAt] at h
    by_cases hcc : c0 = ' ' ∧ c1 = '/'
    case neg =>
      rw [if_neg hcc] at h
      exact Option.noConfusion h
    rw [if_pos hcc] at h
    obtain ⟨rfl, rfl⟩ := hcc
    cases hp1 : parseGroupDot rest with
    | none =>
      simp only [hp1] at h
      exact Option.noConfusion h
    | some p1 =>
      obtain ⟨g1, r1⟩ := p1
      simp only [hp1] at h
      cases hp2 : parseGroupDot r1 with
      | none =>
        simp only [hp2] at h
        exact Option.noConfusion h
      | some p2 =>
        obtain ⟨g2, r2⟩ := p2
        simp only [hp2] at h
        cases hp3 : parseGroupDot r2 with
        | none =>
          simp only [hp3] at h
          exact Option.noConfusion h
        | some p3 =>
          obtain ⟨g3, r3⟩ := p3
          simp only [hp3] at h
          cases hp4 : parseLastGroup r3 with
          | none =>
            simp only [hp4] at h
            exact Option.noConfusion h
          | some g4 =>
            simp only [hp4] at h
            injection h with htok
            obtain ⟨hs1, hd1⟩ := parseGroupDot_sound hp1
            obtain ⟨hs2, hd2⟩ := parseGroupDot_sound hp2
            obtain ⟨hs3, hd3⟩ := parseGroupDot_sound hp3
            obtain ⟨⟨b, hs4⟩, hd4⟩ := parseLastGroup_sound hp4
            refine ⟨g1, g2, g3, g4, b, ?_, hd1, hd2, hd3, hd4, htok.symm⟩
            rw [hs1, hs2, hs3, hs4]

theorem parseAt_complete (g1 g2 g3 g4 b : List Char)
    (h1 : digitGroup g1) (h2 : digitGroup g2) (h3 : digitGroup g3) (h4 : digitGroup g4) :
    (parseAt (' ' :: '/' :: (g1 ++ '.' :: (g2 ++ '.' :: (g3 ++ '.' :: (g4 ++ b)))))).isSome
      = true := by
  obtain ⟨q4, hq4⟩ := parseLastGroup_complete g4 b h4.1 h4.2.1
  simp only [parseAt, if_pos (And.intro rfl rfl),
    parseGroupDot_complete g1 _ h1.1 h1.2.1 h1.2.2,
    parseGroupDot_complete g2 _ h2.1 h2.2.1 h2.2.2,
    parseGroupDot_complete g3 _ h3.1 h3.2.1 h3.2.2, hq4, Option.isSome_some]
  simp

theorem findUnresolved_cons (c : Char) (s : List Char) :
    findUnresolved (c :: s) = match parseAt (c :: s) with
      | some tok => some tok
      | none => findUnresolved s := rfl

theorem findUnresolved_sound {s tok : List Char} (h : findUnresolved s = some tok) :
    ∃ a g1 g2 g3 g4 b,
      s = a ++ ' ' :: '/' :: (g1 ++ '.' :: (g2 ++ '.' :: (g3 ++ '.' :: (g4 ++ b))))
      ∧ digitGroup g1 ∧ digitGroup g2 ∧ digitGroup g3 ∧ digitGroup g4
      ∧ tok = '/' :: (g1 ++ '.' :: (g2 ++ '.' :: (g3 ++ '.' :: g4))) := by
  induction s with
  | nil => exact Option.noConfusion h
  | cons c s ih =>
    rw [findUnresolved_cons] at h
    cases hp : parseAt (c :: s) with
    | some t2 =>
      simp only [hp] at h
      obtain ⟨g1, g2, g3, g4, b, hs, hd1, hd2, hd3, hd4, htok⟩ := parseAt_sound hp
      injection h with ht
      exact ⟨[], g1, g2, g3, g4, b, by rw [List.nil_append, ← hs],
        hd1, hd2, hd3, hd4, by rw [← ht, htok]⟩
    | none =>
      simp only [hp] at h
      obtain ⟨a, g1, g2, g3, g4, b, hs, hd1, hd2, hd3, hd4, htok⟩ := ih h
      exact ⟨c :: a, g1, g2, g3, g4, b, by rw [List.cons_append, hs],
        hd1, hd2, hd3, hd4, htok⟩

theorem findUnresolved_complete (a g1 g2 g3 g4 b : List Char)
    (h1 : digitGroup g1) (h2 : digitGroup g2) (h3 : digitGroup g3) (h4 : digitGroup g4) :
    (findUnresolved
      (a ++ ' ' :: '/' :: (g1 ++ '.' :: (g2 ++ '.' :: (g3 ++ '.' :: (g4 ++ b)))))).isSome
      = true := by
  induction a with
  | nil =>
    rw [List.nil_append, findUnresolved_cons]
    obtain ⟨tok, hp⟩ :=
      Option.isSome_iff_exists.mp (parseAt_complete g1 g2 g3 g4 b h1 h2 h3 h4)
    simp [hp]
  | cons c a ih =>
    rw [List.cons_append, findUnresolved_cons]
    cases hp : parseAt
        (c :: (a ++ ' ' :: '/' :: (g1 ++ '.' :: (g2 ++ '.' :: (g3 ++ '.' :: (g4 ++ b)))))) with
    | some tok => simp [hp]
    | none =>
      simp only [hp]
      exact ih

theorem processActivity_of_none {resolver : List Char → LookupResult}
    {activity : List Char} (h : findUnresolved activity = none) :
    processActivity resolver activity = activity := by
  simp [processActivity, h]

/-! ### Support lemmas for the events command -/

theorem trimRightDots_eq_self {s : List Char} (h : s.getLast? ≠ some '.') :
    trimRightDots s = s := by
  unfold trimRightDots
  cases hs : s.reverse with
  | nil =>
    have : s = [] := by
      rw [← List.reverse_reverse s, hs]
      rfl
    subst this
    rfl
  | cons c t =>
    have hc : c ≠ '.' := by
      intro hcc
      subst hcc
      apply h
      rw [← List.head?_reverse, hs]
      rfl
    rw [List.dropWhile_cons]
    rw [if_neg (by simp [hc] : ¬((c == '.') = true))]
    rw [← hs, List.reverse_reverse]

theorem eventsGo_map_fst (resolver : List Char → LookupResult) (f : List Char)
    (n : Nat) (rows : List EventRow) :
    (eventsGo resolver f n rows).map Prod.fst
      = List.range' n (eventsGo resolver f n rows).length := by
  induction rows generalizing n with
  | nil => rfl
  | cons e es ih =>
    by_cases h : f.length < 1 ∨ f = (renderEvent resolver e).srcName
    · simp only [eventsGo, if_pos h, List.map_cons, List.length_cons, List.range'_succ]
      rw [ih]
    · simp only [eventsGo, if_neg h]
      exact ih n

theorem eventsGo_map_snd (resolver : List Char → LookupResult) (f : List Char)
    (n : Nat) (rows : List EventRow) (hf : f ≠ []) :
    (eventsGo resolver f n rows).map Prod.snd
      = (rows.map (renderEvent resolver)).filter
          (fun e => decide (f = e.srcName)) := by
  induction rows generalizing n with
  | nil => rfl
  | cons e es ih =>
    by_cases h : f = (renderEvent resolver e).srcName
    · simp only [eventsGo, if_pos (Or.inr h), List.map_cons, List.filter_cons,
        decide_eq_true h, if_true]
      rw [ih]
    · have hcond : ¬(f.length < 1 ∨ f = (renderEvent resolver e).srcName) := by
        push_neg
        refine ⟨?_, h⟩
        have := List.length_pos.mpr hf
        omega
      simp only [eventsGo, if_neg hcond, List.map_cons, List.filter_cons,
        decide_eq_false h, Bool.false_eq_true, if_false]
      exact ih n

theorem eventsGo_map_snd_nofilter (resolver : List Char → LookupResult)
    (n : Nat) (rows : List EventRow) :
    (eventsGo resolver [] n rows).map Prod.snd = rows.map (renderEvent resolver) := by
  induction rows generalizing n with
  | nil => rfl
  | cons e es ih =>
    simp only [eventsGo, if_pos (Or.inl (by decide : ([] : List Char).length < 1)),
      List.map_cons]
    rw [ih]

/-! ### Claim theorems -/

/-- C1: for every finite sequence of (query, duration) rows fed to the
stats command, the first row with a given key initializes that key's
stats to min=max=cumulative=duration, count=1 (`newQueryStats`), every
subsequent row with the same key passes through `queryStats.update`
(cumulative+=d, count+=1, min=min(min,d), max=max(max,d)); the reported
average is cumulative divided by count with truncating integer division,
and the keys are printed sorted by this average in descending order. -/
theorem c1_stats_aggregation (rows : List (String × Int)) :
    (∀ q, durationsOf q rows = [] → assocFind (aggregate rows) q = none)
    ∧ (∀ q d ds, durationsOf q rows = d :: ds →
        assocFind (aggregate rows) q
          = some (ds.foldl queryStats.update (newQueryStats d)))
    ∧ (∀ q s, assocFind (aggregate rows) q = some s →
        s.avg = Int.tdiv s.cumulative s.count)
    ∧ List.Sorted (fun k1 k2 => avgKey (aggregate rows) k2 ≤ avgKey (aggregate rows) k1)
        (sortKeys (aggregate rows))
    ∧ (sortKeys (aggregate rows)).Perm (statsKeys (aggregate rows)) := by
  refine ⟨?_, ?_, fun q s _ => rfl, sortKeys_sorted _, sortKeys_perm _⟩
  · intro q hds
    rw [assocFind_aggregate, hds]
    rfl
  · intro q d ds hds
    rw [assocFind_aggregate, hds, foldStats_cons]

theorem c1_witness :
    durationsOf "a" [("a", 10), ("b", 7), ("a", 20)] = [10, 20]
    ∧ assocFind (aggregate [("a", 10), ("b", 7), ("a", 20)]) "a"
      = some (List.foldl queryStats.update (newQueryStats 10) [20])
    ∧ queryStats.avg { min := 10, max := 20, cumulative := 30, count := 2 }
      = Int.tdiv 30 2 := by
  have h := c1_stats_aggregation [("a", 10), ("b", 7), ("a", 20)]
  refine ⟨by decide, h.2.1 "a" 10 [20] (by decide), ?_⟩
  exact h.2.2.1 "a" { min := 10, max := 20, cumulative := 30, count := 2 } (by decide)

/-- C2: for every finite sequence of session rows and every
minimum-duration threshold, the printed session list is sorted by
duration non-increasing, contains exactly the rows with duration ≥ the
threshold, and the summary reports the retained count and the count of
all scanned rows (the latter independent of the threshold). -/
theorem c2_sessions_lister (rows : List Session) (minDuration : Int) :
    List.Sorted (fun a b => b.duration ≤ a.duration) (sessionsReport rows minDuration).1
    ∧ (sessionsReport rows minDuration).1.Perm
        (rows.filter fun s => decide (minDuration ≤ s.duration))
    ∧ (∀ s ∈ (sessionsReport rows minDuration).1, minDuration ≤ s.duration)
    ∧ (∀ s ∈ rows, minDuration ≤ s.duration → s ∈ (sessionsReport rows minDuration).1)
    ∧ (sessionsReport rows minDuration).2.1
        = (rows.filter fun s => decide (minDuration ≤ s.duration)).length
    ∧ (sessionsReport rows minDuration).2.2 = rows.length := by
  haveI : IsTotal Session (fun a b => b.duration ≤ a.duration) :=
    ⟨fun a b => le_total _ _⟩
  haveI : IsTrans Session (fun a b => b.duration ≤ a.duration) :=
    ⟨fun a b c h1 h2 => le_trans h2 h1⟩
  refine ⟨List.sorted_insertionSort _ _, List.perm_insertionSort _ _, ?_, ?_, rfl, rfl⟩
  · intro s hs
    have hmem := (List.perm_insertionSort
      (fun a b : Session => b.duration ≤ a.duration) _).mem_iff.mp hs
    exact of_decide_eq_true (List.mem_filter.mp hmem).2
  · intro s hs hd
    refine (List.perm_insertionSort
      (fun a b : Session => b.duration ≤ a.duration) _).mem_iff.mpr ?_
    exact List.mem_filter.mpr ⟨hs, decide_eq_true hd⟩

theorem c2_witness :
    (∀ s ∈ (sessionsReport
        [⟨1, "Q", 5, [], 0⟩, ⟨2, "Q", 1, [], 0⟩, ⟨3, "Q", 9, [], 0⟩] 4).1,
      (4 : Int) ≤ s.duration)
    ∧ (⟨3, "Q", 9, [], 0⟩ : Session) ∈ (sessionsReport
        [⟨1, "Q", 5, [], 0⟩, ⟨2, "Q", 1, [], 0⟩, ⟨3, "Q", 9, [], 0⟩] 4).1 := by
  have h := c2_sessions_lister
    [⟨1, "Q", 5, [], 0⟩, ⟨2, "Q", 1, [], 0⟩, ⟨3, "Q", 9, [], 0⟩] 4
  exact ⟨h.2.2.1, h.2.2.2.1 ⟨3, "Q", 9, [], 0⟩ (by decide) (by decide)⟩

/-- C5: feeding the same multiset of (query, duration) pairs to the stats
aggregation in either order yields identical per-key stats (hence
identical min, max, count, cumulative and truncated average), and the
same descending-by-average key ordering up to ties: the sorted key lists
are permutations of each other and carry the same average sequence. -/
theorem c5_order_independence (rows1 rows2 : List (String × Int))
    (hperm : rows1.Perm rows2) :
    (∀ q, assocFind (aggregate rows1) q = assocFind (aggregate rows2) q)
    ∧ (sortKeys (aggregate rows1)).Perm (sortKeys (aggregate rows2))
    ∧ (sortKeys (aggregate rows1)).map (avgKey (aggregate rows1))
        = (sortKeys (aggregate rows2)).map (avgKey (aggregate rows2)) := by
  have hfind : ∀ q, assocFind (aggregate rows1) q = assocFind (aggregate rows2) q := by
    intro q
    rw [assocFind_aggregate, assocFind_aggregate]
    exact foldStats_perm (durationsOf_perm q hperm)
  have havg : ∀ q, avgKey (aggregate rows1) q = avgKey (aggregate rows2) q := by
    intro q
    rw [avgKey, avgKey, hfind q]
  have hkeys : (statsKeys (aggregate rows1)).Perm (statsKeys (aggregate rows2)) := by
    rw [List.perm_ext_iff_of_nodup (statsKeys_aggregate_nodup rows1)
      (statsKeys_aggregate_nodup rows2)]
    intro q
    rw [mem_statsKeys_aggregate, mem_statsKeys_aggregate]
    exact (hperm.map Prod.fst).mem_iff
  have hsp : (sortKeys (aggregate rows1)).Perm (sortKeys (aggregate rows2)) :=
    ((sortKeys_perm _).trans hkeys).trans (sortKeys_perm _).symm
  refine ⟨hfind, hsp, ?_⟩
  have hanti : IsAntisymm Int (fun x y : Int => y ≤ x) :=
    ⟨fun a b h1 h2 => le_antisymm h2 h1⟩
  have hmapeq : (sortKeys (aggregate rows2)).map (avgKey (aggregate rows2))
      = (sortKeys (aggregate rows2)).map (avgKey (aggregate rows1)) :=
    List.map_congr_left fun x _ => (havg x).symm
  rw [hmapeq]
  have hperm2 : ((sortKeys (aggregate rows1)).map (avgKey (aggregate rows1))).Perm
      ((sortKeys (aggregate rows2)).map (avgKey (aggregate rows1))) :=
    hsp.map _
  have hs1 : List.Sorted (fun x y : Int => y ≤ x)
      ((sortKeys (aggregate rows1)).map (avgKey (aggregate rows1))) :=
    List.pairwise_map.mpr (sortKeys_sorted _)
  have hs2 : List.Sorted (fun x y : Int => y ≤ x)
      ((sortKeys (aggregate rows2)).map (avgKey (aggregate rows1))) := by
    refine List.pairwise_map.mpr ?_
    have := sortKeys_sorted (aggregate rows2)
    refine this.imp ?_
    intro k1 k2 hk
    rw [havg k1, havg k2]
    exact hk
  exact @List.eq_of_perm_of_sorted Int (fun x y : Int => y ≤ x) hanti _ _ hperm2 hs1 hs2

theorem c5_witness :
    assocFind (aggregate [("a", 1), ("b", 5), ("a", 3)]) "a"
      = assocFind (aggregate [("a", 3), ("b", 5), ("a", 1)]) "a"
    ∧ (sortKeys (aggregate [("a", 1), ("b", 5), ("a", 3)])).map
        (avgKey (aggregate [("a", 1), ("b", 5), ("a", 3)]))
      = (sortKeys (aggregate [("a", 3), ("b", 5), ("a", 1)])).map
        (avgKey (aggregate [("a", 3), ("b", 5), ("a", 1)])) := by
  have h := c5_order_independence [("a", 1), ("b", 5), ("a", 3)]
    [("a", 3), ("b", 5), ("a", 1)] (by decide)
  exact ⟨h.1 "a", h.2.2⟩

/-- C10 counterexample: over Go's wrapping 64-bit arithmetic the claimed
invariant fails: two rows of duration 2^62 for one key drive
cumulative += duration past 2^63, wrapping it to -2^63, so
min * count = 2^63 exceeds the stored cumulative and the truncated
average -2^62 falls below min = 2^62 - the claim, quantified over every
finite row sequence with no overflow proviso, is false of the program. -/
theorem c10_counterexample :
    assocFind (aggregate64
        [("a", 4611686018427387904), ("a", 4611686018427387904)]) "a"
      = some ⟨4611686018427387904, 4611686018427387904, -9223372036854775808, 2⟩
    ∧ ¬((4611686018427387904 : Int) * 2 ≤ -9223372036854775808)
    ∧ ¬((4611686018427387904 : Int) ≤ queryStats.avg
        ⟨4611686018427387904, 4611686018427387904, -9223372036854775808, 2⟩) := by
  refine ⟨by decide, by decide, by decide⟩

/-- C10 (amended): under Go's wrapping 64-bit arithmetic
(`queryStats.update64`), every queryStats value in the stats map
satisfies count ≥ 1, min ≤ max and min·count ≤ cumulative ≤ max·count
(hence min ≤ avg ≤ max and the average's divisor is never zero) at every
point of the row scan, provided no intermediate per-key cumulative sum
leaves the 64-bit range and fewer than 2^63 rows carry the key; without
that no-overflow proviso the invariant fails (see the counterexample). -/
theorem c10_stats_invariant_no_overflow (rows : List (String × Int)) (q : String)
    (s : queryStats)
    (hsum : ∀ n, n ≤ (durationsOf q rows).length →
      inRange64 (((durationsOf q rows).take n).sum))
    (hlen : ((durationsOf q rows).length : Int) < 2 ^ 63)
    (h : assocFind (aggregate64 rows) q = some s) :
    1 ≤ s.count ∧ s.min ≤ s.max
    ∧ s.min * s.count ≤ s.cumulative ∧ s.cumulative ≤ s.max * s.count
    ∧ s.min ≤ s.avg ∧ s.avg ≤ s.max ∧ s.count ≠ 0 := by
  rw [assocFind_aggregate64, foldStats64_eq_foldStats _ hsum hlen] at h
  have hinv : statsInv s := statsInv_foldStats _ _ h
  obtain ⟨h1, h2, h3, h4⟩ := hinv
  have hb := statsInv_avg_bounds s ⟨h1, h2, h3, h4⟩
  exact ⟨h1, h2, h3, h4, hb.1, hb.2, by omega⟩

theorem c10_witness :
    1 ≤ (2 : Int) ∧ (5 : Int) ≤ 7 ∧ (5 : Int) * 2 ≤ 12 ∧ (12 : Int) ≤ 7 * 2
    ∧ (5 : Int) ≤ queryStats.avg { min := 5, max := 7, cumulative := 12, count := 2 }
    ∧ queryStats.avg { min := 5, max := 7, cumulative := 12, count := 2 } ≤ 7
    ∧ (2 : Int) ≠ 0 :=
  c10_stats_invariant_no_overflow [("a", 5), ("a", 7)] "a"
    { min := 5, max := 7, cumulative := 12, count := 2 }
    (by decide) (by decide) (by decide)

/-- C6: for every event row, if reverse-resolving the source IP fails or
returns an empty name list, the printed source field equals the literal
IP string unchanged (an IP literal never ends in a dot, so the trailing
trim in that branch is the identity); otherwise it equals the first
returned name with all trailing dots stripped. -/
theorem c6_source_fallback (r : LookupResult) (ip : List Char) :
    ((r.ok = false ∨ r.names = []) → ip.getLast? ≠ some '.' →
      resolveSrcName r ip = ip)
    ∧ (r.ok = true → r.names ≠ [] →
      resolveSrcName r ip = trimRightDots (r.names.headD [])) := by
  constructor
  · intro hfail hdot
    have hcond : r.ok = false ∨ r.names.length < 1 := by
      rcases hfail with h | h
      · exact Or.inl h
      · exact Or.inr (by simp [h])
    simp only [resolveSrcName, if_pos hcond]
    exact trimRightDots_eq_self hdot
  · intro hok hne
    have hcond : ¬(r.ok = false ∨ r.names.length < 1) := by
      push_neg
      refine ⟨by simp [hok], ?_⟩
      have := List.length_pos.mpr hne
      omega
    simp only [resolveSrcName, if_neg hcond]

theorem c6_witness :
    resolveSrcName { ok := false, names := [] } "10.0.0.1".toList = "10.0.0.1".toList
    ∧ resolveSrcName { ok := true, names := ["x.y..".toList] } "10.0.0.1".toList
      = trimRightDots "x.y..".toList := by
  constructor
  · exact (c6_source_fallback { ok := false, names := [] } "10.0.0.1".toList).1
      (Or.inl rfl) (by decide)
  · exact (c6_source_fallback { ok := true, names := ["x.y..".toList] }
      "10.0.0.1".toList).2 rfl (by decide)

/-- C7: with a non-empty source filter, exactly the events whose resolved
source name equals the filter string (exact, case-sensitive match) are
emitted; emitted lines carry 1-based contiguous line numbers over
emitted events only; with no filter every event is emitted. -/
theorem c7_event_filtering (resolver : List Char → LookupResult) (f : List Char)
    (rows : List EventRow) :
    (f ≠ [] → (eventsReport resolver f rows).map Prod.snd
        = (rows.map (renderEvent resolver)).filter (fun e => decide (f = e.srcName)))
    ∧ (eventsReport resolver f rows).map Prod.fst
        = List.range' 1 (eventsReport resolver f rows).length
    ∧ (f = [] → (eventsReport resolver f rows).map Prod.snd
        = rows.map (renderEvent resolver)) := by
  refine ⟨fun hf => eventsGo_map_snd resolver f 1 rows hf,
    eventsGo_map_fst resolver f 1 rows, fun hf => ?_⟩
  subst hf
  exact eventsGo_map_snd_nofilter resolver 1 rows

theorem c7_witness :
    (eventsReport (fun ip => { ok := true, names := [ip] }) "10.0.0.1".toList
        [⟨1, "a1".toList, "10.0.0.1".toList, 5, "t".toList⟩,
         ⟨2, "a2".toList, "10.0.0.2".toList, 6, "t".toList⟩,
         ⟨3, "a3".toList, "10.0.0.1".toList, 7, "t".toList⟩]).map Prod.snd
      = (([⟨1, "a1".toList, "10.0.0.1".toList, 5, "t".toList⟩,
           ⟨2, "a2".toList, "10.0.0.2".toList, 6, "t".toList⟩,
           ⟨3, "a3".toList, "10.0.0.1".toList, 7, "t".toList⟩] : List EventRow).map
          (renderEvent fun ip => { ok := true, names := [ip] })).filter
          (fun e => decide ("10.0.0.1".toList = e.srcName))
    ∧ (eventsReport (fun ip => { ok := true, names := [ip] }) "10.0.0.1".toList
        [⟨1, "a1".toList, "10.0.0.1".toList, 5, "t".toList⟩,
         ⟨2, "a2".toList, "10.0.0.2".toList, 6, "t".toList⟩,
         ⟨3, "a3".toList, "10.0.0.1".toList, 7, "t".toList⟩]).map Prod.fst
      = List.range' 1 (eventsReport (fun ip => { ok := true, names := [ip] })
          "10.0.0.1".toList
          [⟨1, "a1".toList, "10.0.0.1".toList, 5, "t".toList⟩,
           ⟨2, "a2".toList, "10.0.0.2".toList, 6, "t".toList⟩,
           ⟨3, "a3".toList, "10.0.0.1".toList, 7, "t".toList⟩]).length := by
  have h := c7_event_filtering (fun ip => { ok := true, names := [ip] })
    "10.0.0.1".toList
    [⟨1, "a1".toList, "10.0.0.1".toList, 5, "t".toList⟩,
     ⟨2, "a2".toList, "10.0.0.2".toList, 6, "t".toList⟩,
     ⟨3, "a3".toList, "10.0.0.1".toList, 7, "t".toList⟩]
  exact ⟨h.1 (by decide), h.2.1⟩

/-- C8: the IP-extraction pattern finds a match in an activity string if
and only if the string contains a space followed by a slash-prefixed
dotted quad of four groups of one to three digits each (no range
validation on octet values); an activity string with no such token
passes through the activity post-processing unchanged. -/
theorem c8_pattern_match_iff (s : List Char) (resolver : List Char → LookupResult) :
    ((findUnresolved s).isSome = true ↔
      ∃ a g1 g2 g3 g4 b,
        s = a ++ ' ' :: '/' :: (g1 ++ '.' :: (g2 ++ '.' :: (g3 ++ '.' :: (g4 ++ b))))
        ∧ digitGroup g1 ∧ digitGroup g2 ∧ digitGroup g3 ∧ digitGroup g4)
    ∧ (findUnresolved s = none → processActivity resolver s = s) := by
  constructor
  · constructor
    · intro h
      obtain ⟨tok, htok⟩ := Option.isSome_iff_exists.mp h
      obtain ⟨a, g1, g2, g3, g4, b, hs, h1, h2, h3, h4, _⟩ := findUnresolved_sound htok
      exact ⟨a, g1, g2, g3, g4, b, hs, h1, h2, h3, h4⟩
    · rintro ⟨a, g1, g2, g3, g4, b, rfl, h1, h2, h3, h4⟩
      exact findUnresolved_complete a g1 g2 g3 g4 b h1 h2 h3 h4
  · exact fun h => processActivity_of_none h

theorem c8_witness :
    (findUnresolved " /999.999.999.999x".toList).isSome = true
    ∧ processActivity (fun _ => { ok := true, names := ["h".toList] })
        "no token here".toList = "no token here".toList := by
  constructor
  · exact (c8_pattern_match_iff " /999.999.999.999x".toList
      (fun _ => { ok := true, names := ["h".toList] })).1.mpr
      ⟨[], "999".toList, "999".toList, "999".toList, "999".toList, "x".toList,
        by decide, by decide, by decide, by decide, by decide⟩
  · exact (c8_pattern_match_iff "no token here".toList
      (fun _ => { ok := true, names := ["h".toList] })).2 (by decide)

/-- A concrete resolver used by counterexamples and witnesses: every
lookup succeeds with the single name `h`. -/
def resolverOne : List Char → LookupResult :=
  fun _ => { ok := true, names := ["h".toList] }

/-- C3 counterexample: the code calls strings.Replace with n = -1, which
replaces EVERY occurrence of the matched literal, not only the first: on
the activity " /1.2.3.4 x /1.2.3.4" with a resolver returning "h", the
second occurrence is rewritten too, so the output " h x h" differs from
the claim's prediction " h x /1.2.3.4". -/
theorem c3_counterexample :
    processActivity resolverOne " /1.2.3.4 x /1.2.3.4".toList = " h x h".toList
    ∧ " h x h".toList ≠ " h x /1.2.3.4".toList := by
  constructor
  · decide
  · decide

/-- C3 (amended): for every activity string in which the extraction
pattern finds an embedded IP literal and every resolver response meeting
the best-effort condition, EVERY occurrence of the matched literal in
the activity string is replaced with the first resolved name (global
replacement, `strings.Replace` with n = -1), not only the first: the
first occurrence is replaced and the scan continues over the rest. -/
theorem c3_all_occurrences (resolver : List Char → LookupResult)
    (activity tok : List Char)
    (hfind : findUnresolved activity = some tok)
    (hcond : bestEffortCond (resolver (trimLeftSlashes tok)) = true) :
    processActivity resolver activity
      = replaceAll activity tok ((resolver (trimLeftSlashes tok)).names.headD [])
    ∧ ∀ a b, activity = a ++ tok ++ b →
        (∀ a1 a2, a = a1 ++ a2 → a2 ≠ [] → ∀ t, a2 ++ (tok ++ b) ≠ tok ++ t) →
        processActivity resolver activity
          = a ++ ((resolver (trimLeftSlashes tok)).names.headD [])
            ++ replaceAll b tok ((resolver (trimLeftSlashes tok)).names.headD []) := by
  have hne : tok ≠ [] := by
    obtain ⟨a, g1, g2, g3, g4, b, _, _, _, _, _, htok⟩ := findUnresolved_sound hfind
    rw [htok]
    exact List.cons_ne_nil _ _
  have hmain : processActivity resolver activity
      = replaceAll activity tok ((resolver (trimLeftSlashes tok)).names.headD []) := by
    simp [processActivity, hfind, hcond]
  refine ⟨hmain, ?_⟩
  intro a b hab hocc
  rw [hmain, hab]
  exact replaceAll_append_occ a tok b _ hne hocc

theorem c3_witness :
    processActivity resolverOne " /1.2.3.4 x /1.2.3.4".toList
      = replaceAll " /1.2.3.4 x /1.2.3.4".toList "/1.2.3.4".toList
          ((resolverOne (trimLeftSlashes "/1.2.3.4".toList)).names.headD [])
    ∧ processActivity resolverOne " /1.2.3.4 x /1.2.3.4".toList
      = [' '] ++ ((resolverOne (trimLeftSlashes "/1.2.3.4".toList)).names.headD [])
          ++ replaceAll " x /1.2.3.4".toList "/1.2.3.4".toList
              ((resolverOne (trimLeftSlashes "/1.2.3.4".toList)).names.headD []) := by
  have h := c3_all_occurrences resolverOne " /1.2.3.4 x /1.2.3.4".toList
    "/1.2.3.4".toList (by decide) (by decide)
  refine ⟨h.1, h.2 [' '] " x /1.2.3.4".toList (by decide) ?_⟩
  intro a1 a2 hsplit hne t heq
  rcases a1 with _ | ⟨c, a1⟩
  · rw [List.nil_append] at hsplit
    subst hsplit
    have hh : (' ' : Char) = '/' := congrArg (fun l => l.headD ' ') heq
    exact absurd hh (by decide)
  · injection hsplit with h1 h2
    exact hne (List.append_eq_nil.mp h2.symm).2

/-- C4 counterexample: the branch condition `err == nil || len(names) > 1`
admits a successful lookup response carrying an empty names slice, and
for that response the names slice is empty, so the claim quantified over
all resolver responses fails (`names[0]` would be out of bounds). -/
theorem c4_counterexample :
    ¬ ∀ r : LookupResult, bestEffortCond r = true → r.names ≠ [] := by
  intro h
  exact h { ok := true, names := [] } rfl rfl

/-- C4 (amended): whenever the branch is entered via the error disjunct
(err ≠ nil, i.e. ok = false), more than one name was returned, so the
names slice is non-empty and the access names[0] is within bounds; entry
via err == nil bounds the access only if the resolver returned at least
one name on success. -/
theorem c4_err_entry_nonempty (r : LookupResult)
    (hcond : bestEffortCond r = true) (herr : r.ok = false) :
    0 < r.names.length := by
  unfold bestEffortCond at hcond
  rw [herr] at hcond
  simp only [Bool.false_or, decide_eq_true_eq] at hcond
  omega

theorem c4_witness :
    bestEffortCond { ok := false, names := ["a".toList, "b".toList] } = true
    ∧ 0 < ({ ok := false, names := ["a".toList, "b".toList] } : LookupResult).names.length :=
  ⟨rfl, c4_err_entry_nonempty { ok := false, names := ["a".toList, "b".toList] } rfl rfl⟩

/-- C9: the end-to-end example: three sessions with (duration, query)
(120, "SELECT a"), (80, "SELECT a"), (200, "SELECT b"); with
min-duration 100 the lister retains exactly the 200 and 120 rows in that
order and reports 2 matching results of 3 total; the stats command
yields "SELECT b": count=1, min=200, max=200, avg=200 ranked above
"SELECT a": count=2, min=80, max=120, avg=100. -/
theorem c9_end_to_end :
    (sessionsReport
        [⟨1, "QUERY", 120, [("query", "SELECT a")], 0⟩,
         ⟨2, "QUERY", 80, [("query", "SELECT a")], 0⟩,
         ⟨3, "QUERY", 200, [("query", "SELECT b")], 0⟩] 100).1
      = [⟨3, "QUERY", 200, [("query", "SELECT b")], 0⟩,
         ⟨1, "QUERY", 120, [("query", "SELECT a")], 0⟩]
    ∧ (sessionsReport
        [⟨1, "QUERY", 120, [("query", "SELECT a")], 0⟩,
         ⟨2, "QUERY", 80, [("query", "SELECT a")], 0⟩,
         ⟨3, "QUERY", 200, [("query", "SELECT b")], 0⟩] 100).2.1 = 2
    ∧ (sessionsReport
        [⟨1, "QUERY", 120, [("query", "SELECT a")], 0⟩,
         ⟨2, "QUERY", 80, [("query", "SELECT a")], 0⟩,
         ⟨3, "QUERY", 200, [("query", "SELECT b")], 0⟩] 100).2.2 = 3
    ∧ assocFind (aggregate [("SELECT a", 120), ("SELECT a", 80), ("SELECT b", 200)])
        "SELECT b" = some { min := 200, max := 200, cumulative := 200, count := 1 }
    ∧ assocFind (aggregate [("SELECT a", 120), ("SELECT a", 80), ("SELECT b", 200)])
        "SELECT a" = some { min := 80, max := 120, cumulative := 200, count := 2 }
    ∧ (assocFind (aggregate [("SELECT a", 120), ("SELECT a", 80), ("SELECT b", 200)])
        "SELECT b").map queryStats.avg = some 200
    ∧ (assocFind (aggregate [("SELECT a", 120), ("SELECT a", 80), ("SELECT b", 200)])
        "SELECT a").map queryStats.avg = some 100
    ∧ sortKeys (aggregate [("SELECT a", 120), ("SELECT a", 80), ("SELECT b", 200)])
      = ["SELECT b", "SELECT a"] := by
  refine ⟨by decide, by decide, by decide, by decide, by decide, by decide, by decide,
    by decide⟩
